import Mathlib

/-!
Verification development for the AI Job Search Agent
(`job_search_agent.py`): a shallow embedding of its classifier
(`_matches_strict`, `_matches_wide`), aggregator (`search_all` dedup),
reporter (`generate_report`, `_render_jobs`, `_format_date`) and
serialization (`save_results`), together with theorems about the
properties the specification states for them.
-/

/-! ## String utilities mirroring Python built-ins -/

/-- Scan for `pat` occurring as a contiguous run inside the char list:
Python's `pat in s` substring test. -/
def patScan (pat : List Char) : List Char → Bool
  | [] => pat.isEmpty
  | c :: rest => pat.isPrefixOf (c :: rest) || patScan pat rest

/-- Python `pat in s` on strings (substring containment). -/
def containsSub (s pat : String) : Bool :=
  patScan pat.toList s.toList

theorem isPrefixOf_exists (p : List Char) :
    ∀ l : List Char, p.isPrefixOf l = true ↔ ∃ t, l = p ++ t := by
  induction p with
  | nil => intro l; simp [List.isPrefixOf]
  | cons a as ih =>
    intro l
    cases l with
    | nil => simp [List.isPrefixOf]
    | cons b bs =>
      simp only [List.isPrefixOf, Bool.and_eq_true, beq_iff_eq, ih bs]
      constructor
      · rintro ⟨rfl, t, rfl⟩; exact ⟨t, rfl⟩
      · rintro ⟨t, ht⟩
        injection ht with h1 h2
        exact ⟨h1.symm, t, h2⟩

theorem patScan_exists (pat : List Char) :
    ∀ l : List Char, patScan pat l = true ↔ ∃ p q, l = p ++ pat ++ q := by
  intro l
  induction l with
  | nil =>
    simp only [patScan, List.isEmpty_iff]
    constructor
    · rintro rfl; exact ⟨[], [], rfl⟩
    · rintro ⟨p, q, h⟩
      rcases List.append_eq_nil.mp h.symm with ⟨h1, h2⟩
      exact (List.append_eq_nil.mp h1).2
  | cons c rest ih =>
    simp only [patScan, Bool.or_eq_true, isPrefixOf_exists, ih]
    constructor
    · rintro (⟨t, ht⟩ | ⟨p, q, hpq⟩)
      · exact ⟨[], t, by simp [ht]⟩
      · exact ⟨c :: p, q, by simp [hpq]⟩
    · rintro ⟨p, q, hpq⟩
      cases p with
      | nil => exact Or.inl ⟨q, by simpa using hpq⟩
      | cons x xs =>
        injection hpq with h1 h2
        exact Or.inr ⟨xs, q, by simp [h2]⟩

/-- Substring containment is transitive: if `s` contains `p` and `p`
contains `q`, then `s` contains `q`. -/
theorem containsSub_trans {s p q : String}
    (h1 : containsSub s p = true) (h2 : containsSub p q = true) :
    containsSub s q = true := by
  rw [containsSub, patScan_exists] at h1 h2 ⊢
  obtain ⟨a, b, hab⟩ := h1
  obtain ⟨c, d, hcd⟩ := h2
  refine ⟨a ++ c, d ++ b, ?_⟩
  rw [hab, hcd]
  simp [List.append_assoc]

/-- Python `str.lower()` (`title.lower()` in the source): lowercase every
character. Modelled per character with `Char.toLower`, which agrees with
Python on the ASCII titles the job boards return. -/
def pyLower (s : String) : String :=
  String.mk (s.toList.map Char.toLower)

/-- Python `str.title()`: uppercase a letter that follows a non-letter,
lowercase a letter that follows a letter. -/
def pyTitleChars : Bool → List Char → List Char
  | _, [] => []
  | prevAlpha, c :: rest =>
    (if c.isAlpha then (if prevAlpha then c.toLower else c.toUpper) else c)
      :: pyTitleChars c.isAlpha rest

/-- Python `str.title()` used for `company.title()`. -/
def pyTitle (s : String) : String :=
  String.mk (pyTitleChars false s.toList)

/-! ## Classifier (`_matches_strict`, `_matches_wide`) -/

def ai_keywords : List String :=
  ["ai", "artificial intelligence", "ml", "machine learning", "llm", "gpt", "claude"]

def function_keywords : List String :=
  ["prompt engineer", "content engineer", "ai content", "ai writer",
   "content strategist", "ux", "user experience", "product design",
   "interaction design"]

/-- The subset of function keywords that additionally require an AI
indicator substring (the inner list literal at line 187 of the source). -/
def uxGatedKeywords : List String :=
  ["ux", "user experience", "product design", "interaction design"]

/-- The `for kw in function_keywords` loop of `_matches_strict`: the first
keyword contained in the lowercased title decides the result. -/
def strictLoop (tl : String) : List String → Bool
  | [] => false
  | kw :: rest =>
    if containsSub tl kw then
      if uxGatedKeywords.contains kw then
        ai_keywords.any (fun ai => containsSub tl ai)
      else true
    else strictLoop tl rest

/-- `JobSearchAgent._matches_strict`. -/
def matchesStrict (title : String) : Bool :=
  strictLoop (pyLower title) function_keywords

def wide_keywords : List String :=
  ["ai", "artificial intelligence", "ml", "machine learning", "llm", "gpt",
   "genai", "generative ai"]

def role_anchor_keywords : List String :=
  ["product", "manager", "pm", "platform", "tooling", "integration",
   "integrations", "solutions", "solution", "architect", "architecture",
   "experience", "developer", "content", "documentation", "design",
   "designer", "ux", "collaboration", "human-ai"]

def exclude_terms : List String :=
  ["fraud", "ads", "ranking", "relevance", "recommendation", "infra",
   "infrastructure", "risk", "security", "platform security",
   "ml feature platform", "feature platform", "acceleration"]

/-- `JobSearchAgent._matches_wide`. -/
def matchesWide (title : String) : Bool :=
  let tl := pyLower title
  if !(wide_keywords.any (fun kw => containsSub tl kw)) then false
  else if !(role_anchor_keywords.any (fun anchor => containsSub tl anchor)) then false
  else if exclude_terms.any (fun ex => containsSub tl ex) then false
  else true

/-! ## Date values and `_format_date` -/

/-- The two runtime types `_format_date` receives (plus Python `None`):
an epoch-millisecond number (Lever `createdAt`) or a string
(Greenhouse `updated_at` or the sentinel "Recent"). -/
inductive DateVal where
  | null : DateVal
  | num (ms : Int) : DateVal
  | str (s : String) : DateVal
deriving DecidableEq

def monthAbbrevs : List String :=
  ["Jan", "Feb", "Mar", "Apr", "May", "Jun",
   "Jul", "Aug", "Sep", "Oct", "Nov", "Dec"]

/-- `strftime("%b")`. -/
def monthAbbrev (m : Nat) : String := monthAbbrevs.getD (m - 1) ""

/-- `strftime("%d")`: day zero-padded to two digits. -/
def pad2 (n : Nat) : List Char :=
  [Nat.digitChar (n / 10 % 10), Nat.digitChar (n % 10)]

/-- `strftime("%Y")`: year padded to four digits. -/
def pad4 (n : Nat) : List Char :=
  [Nat.digitChar (n / 1000 % 10), Nat.digitChar (n / 100 % 10),
   Nat.digitChar (n / 10 % 10), Nat.digitChar (n % 10)]

/-- Python `str.replace(" 0", " ")`: drop the zero of every
(non-overlapping, left-to-right) space-zero pair. -/
def stripZero : List Char → List Char
  | [] => []
  | [c] => [c]
  | a :: b :: rest =>
    if a = ' ' ∧ b = '0' then ' ' :: stripZero rest
    else a :: stripZero (b :: rest)

/-- The chars of `dt.strftime("%b %d, %Y")`. -/
def strftimeBdY (y m d : Nat) : List Char :=
  (monthAbbrev m).toList ++ ' ' :: (pad2 d ++ ',' :: ' ' :: pad4 y)

/-- `dt.strftime("%b %d, %Y").replace(" 0", " ")`. -/
def displayString (y m d : Nat) : String :=
  String.mk (stripZero (strftimeBdY y m d))

/-- Leap-year rule used by `datetime`'s proleptic Gregorian calendar. -/
def isLeapYear (y : Nat) : Bool :=
  y % 4 = 0 && (y % 100 != 0 || y % 400 = 0)

/-- Month lengths validated by the `datetime` constructor. -/
def daysInMonth (y m : Nat) : Nat :=
  if m = 2 then (if isLeapYear y then 29 else 28)
  else if m = 4 ∨ m = 6 ∨ m = 9 ∨ m = 11 then 30 else 31

/-- Civil (year, month, day) of the day `days` counted from 1970-01-01,
the standard Gregorian conversion performed inside
`datetime.fromtimestamp`. -/
def civilFromDays (days : Int) : Int × Nat × Nat :=
  let z : Int := days + 719468
  let era : Int := Int.fdiv z 146097
  let doe : Nat := (z - era * 146097).toNat
  let yoe : Nat := (doe - doe / 1460 + doe / 36524 - doe / 146096) / 365
  let y : Int := (yoe : Int) + era * 400
  let doy : Nat := doe - (365 * yoe + yoe / 4 - yoe / 100)
  let mp : Nat := (5 * doy + 2) / 153
  let d : Nat := doy - (153 * mp + 2) / 5 + 1
  let m : Nat := if mp < 10 then mp + 3 else mp - 9
  (if m ≤ 2 then y + 1 else y, m, d)

/-- Modelled from the Python standard library:
`datetime.fromtimestamp(date_val / 1000.0)` with the timezone taken as
UTC — convert epoch milliseconds to a civil date and validate it as the
`datetime` constructor does (year 1–9999, month 1–12, day within the
month), raising (`none`) outside that range. -/
def millisToYMD (ms : Int) : Option (Nat × Nat × Nat) :=
  let t := civilFromDays (Int.fdiv (Int.fdiv ms 1000) 86400)
  if 1 ≤ t.1 ∧ t.1 ≤ 9999 ∧ 1 ≤ t.2.1 ∧ t.2.1 ≤ 12 ∧
     1 ≤ t.2.2 ∧ t.2.2 ≤ daysInMonth t.1.toNat t.2.1 then
    some (t.1.toNat, t.2.1, t.2.2)
  else none

/-- Digit value of a char, `none` for a non-digit. -/
def digitVal? (c : Char) : Option Nat :=
  if c = '0' then some 0 else if c = '1' then some 1
  else if c = '2' then some 2 else if c = '3' then some 3
  else if c = '4' then some 4 else if c = '5' then some 5
  else if c = '6' then some 6 else if c = '7' then some 7
  else if c = '8' then some 8 else if c = '9' then some 9 else none

def parse2 (a b : Char) : Option Nat :=
  match digitVal? a, digitVal? b with
  | some x, some y => some (x * 10 + y)
  | _, _ => none

def parse4 (a b c d : Char) : Option Nat :=
  match digitVal? a, digitVal? b, digitVal? c, digitVal? d with
  | some w, some x, some y, some z => some (w * 1000 + x * 100 + y * 10 + z)
  | _, _, _, _ => none

def isDigitChar (c : Char) : Bool := (digitVal? c).isSome

/-- UTC offset suffix `±HH:MM` accepted by `datetime.fromisoformat`
(empty when absent). -/
def validOffset : List Char → Bool
  | [] => true
  | sign :: h1 :: h2 :: c :: m1 :: m2 :: [] =>
    (sign = '+' ∨ sign = '-') && c = ':' &&
    (match parse2 h1 h2, parse2 m1 m2 with
     | some hh, some mm => hh < 24 && mm < 60
     | _, _ => false)
  | _ => false

/-- Fractional seconds: `.fff` or `.ffffff`, then an optional offset. -/
def validFracPart : List Char → Bool
  | [] => true
  | c :: rest =>
    if c = '.' then
      let ds := rest.takeWhile isDigitChar
      (ds.length = 3 ∨ ds.length = 6) && validOffset (rest.drop ds.length)
    else validOffset (c :: rest)

def validSecPart : List Char → Bool
  | [] => true
  | c :: rest =>
    if c = ':' then
      match rest with
      | s1 :: s2 :: rest2 =>
        (match parse2 s1 s2 with
         | some ss => ss < 60 && validFracPart rest2
         | none => false)
      | _ => false
    else validOffset (c :: rest)

def validMinPart : List Char → Bool
  | [] => true
  | c :: rest =>
    if c = ':' then
      match rest with
      | m1 :: m2 :: rest2 =>
        (match parse2 m1 m2 with
         | some mm => mm < 60 && validSecPart rest2
         | none => false)
      | _ => false
    else validOffset (c :: rest)

def validTime : List Char → Bool
  | h1 :: h2 :: rest =>
    (match parse2 h1 h2 with
     | some hh => hh < 24 && validMinPart rest
     | none => false)
  | _ => false

/-- Separator plus time-of-day, when present after the date. -/
def validTimePart : List Char → Bool
  | [] => true
  | sep :: t => (sep = 'T' ∨ sep = ' ') && validTime t

/-- Modelled from the Python standard library:
`datetime.fromisoformat` — parse `YYYY-MM-DD`, optionally followed by a
separator and `HH[:MM[:SS[.fff[fff]]]]` and a `±HH:MM` offset, validating
all ranges; return the (year, month, day) used by `strftime`. -/
def parseIso (l : List Char) : Option (Nat × Nat × Nat) :=
  match l with
  | y1 :: y2 :: y3 :: y4 :: s1 :: m1 :: m2 :: s2 :: d1 :: d2 :: rest =>
    match parse4 y1 y2 y3 y4, parse2 m1 m2, parse2 d1 d2 with
    | some y, some m, some d =>
      if s1 = '-' ∧ s2 = '-' ∧ 1 ≤ y ∧ 1 ≤ m ∧ m ≤ 12 ∧ 1 ≤ d ∧
         d ≤ daysInMonth y m ∧ validTimePart rest then
        some (y, m, d)
      else none
    | _, _, _ => none
  | _ => none

/-- `date_val.replace("Z", "+00:00")`. -/
def replaceZ (l : List Char) : List Char :=
  (l.map (fun c => if c = 'Z' then "+00:00".toList else [c])).flatten

/-- `JobSearchAgent._format_date`. -/
def formatDate : DateVal → String
  | .null => ""
  | .num ms =>
    match millisToYMD ms with
    | some (y, m, d) => displayString y m d
    | none => toString ms
  | .str s =>
    if s = "" then ""
    else if s = "Recent" then "Recent"
    else
      match parseIso (replaceZ s.toList) with
      | some (y, m, d) => displayString y m d
      | none => s

/-! ## Job postings and the per-company processing loops -/

/-- A posting record as built by `search_greenhouse_jobs` /
`search_lever_jobs` (a Python dict in the source; `typ` models the
`"type"` key, present only in Lever records). -/
structure Job where
  title : String
  company : String
  location : String
  typ : Option String
  url : String
  source : String
  postedDate : DateVal
  tier : String
deriving DecidableEq

/-- A raw Greenhouse API posting as the loop body reads it:
`job.get("title", "")` (a missing title is the empty string),
`(job.get("location") or {}).get("name", "Not specified")`,
`job.get("absolute_url", "")`, `job.get("updated_at", "Recent")`. -/
structure RawGreenhouse where
  title : String
  locationName : Option String
  absoluteUrl : String
  updatedAt : Option String
deriving DecidableEq

/-- A raw Lever API posting as the loop body reads it:
`job.get("text", "")`, `categories.get("location", "Not specified")`,
`categories.get("commitment", "")`, `job.get("hostedUrl", "")`,
`job.get("createdAt", "Recent")` (an epoch-millisecond int when present). -/
structure RawLever where
  text : String
  categoriesLocation : Option String
  categoriesCommitment : Option String
  hostedUrl : String
  createdAt : Option Int
deriving DecidableEq

/-- The `for job in job_posts` loop of `search_greenhouse_jobs`
(lines 71–95): skip empty titles, classify, keep matches. -/
def processGreenhouse (company : String) (posts : List RawGreenhouse) : List Job :=
  posts.filterMap fun job =>
    if job.title = "" then none
    else if !matchesStrict job.title && !matchesWide job.title then none
    else some
        { title := job.title
          company := pyTitle company
          location := job.locationName.getD "Not specified"
          typ := none
          url := job.absoluteUrl
          source := "Greenhouse"
          postedDate := DateVal.str (job.updatedAt.getD "Recent")
          tier := if matchesStrict job.title then "strict" else "wide" }

/-- The `for job in job_posts` loop of `search_lever_jobs`
(lines 133–160). -/
def processLever (company : String) (posts : List RawLever) : List Job :=
  posts.filterMap fun job =>
    if job.text = "" then none
    else if !matchesStrict job.text && !matchesWide job.text then none
    else some
        { title := job.text
          company := pyTitle company
          location := job.categoriesLocation.getD "Not specified"
          typ := some (job.categoriesCommitment.getD "")
          url := job.hostedUrl
          source := "Lever"
          postedDate :=
            match job.createdAt with
            | some n => DateVal.num n
            | none => DateVal.str "Recent"
          tier := if matchesStrict job.text then "strict" else "wide" }

/-- The `if found_count:` print after the Greenhouse loop (lines 97–98). -/
def greenhouseFoundLog (company : String) (posts : List RawGreenhouse) : List String :=
  let n := (processGreenhouse company posts).length
  if n ≠ 0 then ["   Found " ++ toString n ++ " matching/wide-net jobs"] else []

/-- The `if found_count:` print after the Lever loop (lines 162–163). -/
def leverFoundLog (company : String) (posts : List RawLever) : List String :=
  let n := (processLever company posts).length
  if n ≠ 0 then ["   Found " ++ toString n ++ " matching/wide-net jobs"] else []

/-! ## Aggregator (`search_all` dedup, lines 280–290) -/

abbrev JobKey := String × String

/-- `key = (job["title"].lower(), job["company"].lower())`. -/
def dedupKey (j : Job) : JobKey := (pyLower j.title, pyLower j.company)

/-- `seen.get(key)` on the insertion-ordered association list that models
the Python dict. -/
def assocFind : List (JobKey × Job) → JobKey → Option Job
  | [], _ => none
  | e :: rest, k => if e.1 = k then some e.2 else assocFind rest k

/-- `seen[key] = job` when the key is already present: a Python dict
replaces the value in place, keeping the key's insertion position. -/
def replaceAssoc (m : List (JobKey × Job)) (k : JobKey) (j : Job) :
    List (JobKey × Job) :=
  m.map fun e => if e.1 = k then (k, j) else e

/-- One iteration of the dedup loop: insert when absent, replace when the
kept tier is "wide" and the new one is "strict", otherwise keep. -/
def insertJob (seen : List (JobKey × Job)) (j : Job) : List (JobKey × Job) :=
  match assocFind seen (dedupKey j) with
  | none => seen ++ [(dedupKey j, j)]
  | some existing =>
    if existing.tier == "wide" && j.tier == "strict" then
      replaceAssoc seen (dedupKey j) j
    else seen

/-- `search_all`'s dedup of the concatenated classified postings:
`self.results = list(seen.values())`. -/
def aggregate (jobs : List Job) : List Job :=
  (jobs.foldl insertJob []).map Prod.snd

/-- The record the dedup map retains for key `k`. -/
def survivorAt (jobs : List Job) (k : JobKey) : Option Job :=
  assocFind (jobs.foldl insertJob []) k

/-- `search_all` on already-fetched raw postings: classify per company,
concatenate Greenhouse before Lever, dedup. -/
def pipelineJobs (gh : List (String × List RawGreenhouse))
    (lv : List (String × List RawLever)) : List Job :=
  aggregate ((gh.map fun p => processGreenhouse p.1 p.2).flatten ++
             (lv.map fun p => processLever p.1 p.2).flatten)

/-! ## Reporter (`generate_report`, `_render_jobs`) -/

def eq80 : String := String.mk (List.replicate 80 '=')
def dash80 : String := String.mk (List.replicate 80 '-')
def box80 : String := String.mk (List.replicate 80 '─')

def strictJobs (jobs : List Job) : List Job :=
  jobs.filter fun j => j.tier == "strict"

def wideJobs (jobs : List Job) : List Job :=
  jobs.filter fun j => j.tier == "wide"

/-- Python `str.upper()` for `company.upper()`. -/
def pyUpper (s : String) : String :=
  String.mk (s.toList.map Char.toUpper)

/-- Insertion of a company name into a lexicographically sorted list
(`sorted(grouped.items())` sorts by the company string). -/
def insertSortedStr (s : String) : List String → List String
  | [] => [s]
  | t :: rest => if s < t then s :: t :: rest else t :: insertSortedStr s rest

def sortStrs (l : List String) : List String :=
  l.foldr insertSortedStr []

/-- First-occurrence deduplication: the distinct companies in the order
the `grouped` dict acquires its keys. -/
def dedupKeep (l : List String) : List String :=
  l.foldl (fun acc c => if acc.contains c then acc else acc ++ [c]) []

/-- The per-posting lines of `_render_jobs` (lines 327–335): Python's
`if j.get("type")` and `if formatted_date:` are truthiness tests, so an
absent key, `None` and `""` all suppress the line. -/
def jobLines (j : Job) : List String :=
  ("• " ++ j.title) ::
  ("   Location: " ++ j.location) ::
  ((match j.typ with
    | some t => if t = "" then [] else ["   Type: " ++ t]
    | none => []) ++
   (let fd := formatDate j.postedDate
    if fd = "" then [] else ["   Posted: " ++ fd]) ++
   ["   Apply: " ++ j.url, ""])

/-- `JobSearchAgent._render_jobs`. -/
def renderJobs (jobList : List Job) : List String :=
  if jobList.isEmpty then ["No roles found.\n"]
  else
    ((sortStrs (dedupKeep (jobList.map Job.company))).map fun company =>
      ("\n" ++ box80 ++ "\n" ++ pyUpper company ++ "\n" ++ box80) ::
      ((jobList.filter fun j => j.company == company).map jobLines).flatten
    ).flatten

/-- Every line of `generate_report` after the first two (separator and
date header): a function of the job list alone. -/
def restReportLines (jobs : List Job) : List String :=
  eq80 ::
  ("\nFound " ++ toString (strictJobs jobs).length ++
   " strict-match roles and " ++ toString (wideJobs jobs).length ++
   " wider-net roles (" ++ toString jobs.length ++ " total).\n") ::
  ("\nSTRICT MATCH ROLES (AI content / UX / prompt / design)" ::
   dash80 ::
   (renderJobs (strictJobs jobs) ++
    "\nOTHER AI ROLES (WIDER NET)" ::
    dash80 ::
    (renderJobs (wideJobs jobs) ++
     [eq80, "Total: " ++ toString jobs.length ++ " jobs found", eq80])))

/-- The `lines` list of `generate_report`; `currentDate` stands for
`datetime.now().strftime('%B %d, %Y')`, the only run-dependent input. -/
def reportLines (jobs : List Job) (currentDate : String) : List String :=
  eq80 :: ("AI JOB SEARCH RESULTS - " ++ currentDate) :: restReportLines jobs

/-- `JobSearchAgent.generate_report`: `"\n".join(lines)`. -/
def generateReport (jobs : List Job) (currentDate : String) : String :=
  String.intercalate "\n" (reportLines jobs currentDate)

/-! ## Serialization (`save_results`) -/

/-- A JSON scalar as `json.dump` receives it from these records. -/
inductive JVal where
  | s (v : String) : JVal
  | n (v : Int) : JVal
  | null : JVal
deriving DecidableEq

def dateValToJVal : DateVal → JVal
  | .null => .null
  | .num ms => .n ms
  | .str s => .s s

/-- The key/value pairs of one posting dict, in the construction order of
the source's dict literals (the `"type"` key exists only for Lever
records). -/
def jobToFields (j : Job) : List (String × JVal) :=
  [("title", JVal.s j.title), ("company", JVal.s j.company),
   ("location", JVal.s j.location)] ++
  (match j.typ with
   | some t => [("type", JVal.s t)]
   | none => []) ++
  [("url", JVal.s j.url), ("source", JVal.s j.source),
   ("posted_date", dateValToJVal j.postedDate), ("tier", JVal.s j.tier)]

/-- `json.dump({"jobs": self.results}, jf)`: the structured file is a
single-key object holding the flat list of posting records. -/
def savePayload (results : List Job) :
    List (String × List (List (String × JVal))) :=
  [("jobs", results.map jobToFields)]

def greenhouseFieldNames : List String :=
  ["title", "company", "location", "url", "source", "posted_date", "tier"]

def leverFieldNames : List String :=
  ["title", "company", "location", "type", "url", "source", "posted_date", "tier"]

/-! ## Classifier theorems -/

/-- C3: a title that (case-insensitively) contains "machine learning" and
"platform" and none of the exclusion terms passes the wide predicate. -/
theorem c3_wide_ml_platform (title : String)
    (h1 : containsSub (pyLower title) "machine learning" = true)
    (h2 : containsSub (pyLower title) "platform" = true)
    (h3 : ∀ ex ∈ exclude_terms, containsSub (pyLower title) ex = false) :
    matchesWide title = true := by
  have hw : wide_keywords.any (fun kw => containsSub (pyLower title) kw) = true :=
    List.any_eq_true.mpr ⟨"machine learning", by simp [wide_keywords], h1⟩
  have ha : role_anchor_keywords.any
      (fun anchor => containsSub (pyLower title) anchor) = true :=
    List.any_eq_true.mpr ⟨"platform", by simp [role_anchor_keywords], h2⟩
  have he : exclude_terms.any (fun ex => containsSub (pyLower title) ex) = false := by
    cases h : exclude_terms.any (fun ex => containsSub (pyLower title) ex) with
    | false => rfl
    | true =>
      obtain ⟨x, hx, hfx⟩ := List.any_eq_true.mp h
      rw [h3 x hx] at hfx
      cases hfx
  simp [matchesWide, hw, ha, he]

theorem c3_witness : matchesWide "Machine Learning Platform Engineer" = true :=
  c3_wide_ml_platform "Machine Learning Platform Engineer"
    (by decide) (by decide) (by decide)

/-- C4: a title that (case-insensitively) contains "machine learning" and
"infra" fails the wide predicate, whatever role anchors it contains:
"infra" is an exclusion term. -/
theorem c4_wide_ml_infra (title : String)
    (h1 : containsSub (pyLower title) "machine learning" = true)
    (h2 : containsSub (pyLower title) "infra" = true) :
    matchesWide title = false := by
  have he : exclude_terms.any (fun ex => containsSub (pyLower title) ex) = true :=
    List.any_eq_true.mpr ⟨"infra", by simp [exclude_terms], h2⟩
  simp only [matchesWide]
  cases hA : wide_keywords.any (fun kw => containsSub (pyLower title) kw) <;>
    cases hB : role_anchor_keywords.any
      (fun anchor => containsSub (pyLower title) anchor) <;>
    simp [hA, hB, he]

theorem c4_witness : matchesWide "Machine Learning Infrastructure Engineer" = false :=
  c4_wide_ml_infra "Machine Learning Infrastructure Engineer"
    (by decide) (by decide)

/-- C2 fails on the code as stated: "UX Content Strategist" contains "ux"
and none of the AI indicator substrings, yet the strict predicate is true,
because the loop hits the ungated keyword "content strategist" first. -/
theorem c2_counterexample :
    containsSub (pyLower "UX Content Strategist") "ux" = true ∧
    (∀ a ∈ ai_keywords, containsSub (pyLower "UX Content Strategist") a = false) ∧
    matchesStrict "UX Content Strategist" = true :=
  ⟨by decide, by decide, by decide⟩

/-- C2 (amended): a title containing "ux" but no AI indicator substring
and none of the ungated function keywords "prompt engineer",
"content engineer", "content strategist" fails the strict predicate
("ai content" and "ai writer" are already excluded by the AI hypothesis). -/
theorem c2_amended (title : String)
    (hux : containsSub (pyLower title) "ux" = true)
    (hai : ∀ a ∈ ai_keywords, containsSub (pyLower title) a = false)
    (hpe : containsSub (pyLower title) "prompt engineer" = false)
    (hce : containsSub (pyLower title) "content engineer" = false)
    (hcs : containsSub (pyLower title) "content strategist" = false) :
    matchesStrict title = false := by
  have hai2 : containsSub (pyLower title) "ai" = false :=
    hai "ai" (by simp [ai_keywords])
  have hac : containsSub (pyLower title) "ai content" = false := by
    cases h : containsSub (pyLower title) "ai content" with
    | false => rfl
    | true =>
      have h2 := containsSub_trans h (by decide : containsSub "ai content" "ai" = true)
      rw [hai2] at h2
      cases h2
  have haw : containsSub (pyLower title) "ai writer" = false := by
    cases h : containsSub (pyLower title) "ai writer" with
    | false => rfl
    | true =>
      have h2 := containsSub_trans h (by decide : containsSub "ai writer" "ai" = true)
      rw [hai2] at h2
      cases h2
  have hanyai : ai_keywords.any (fun ai => containsSub (pyLower title) ai) = false := by
    cases h : ai_keywords.any (fun ai => containsSub (pyLower title) ai) with
    | false => rfl
    | true =>
      obtain ⟨x, hx, hfx⟩ := List.any_eq_true.mp h
      rw [hai x hx] at hfx
      cases hfx
  have hgated : uxGatedKeywords.contains "ux" = true := by decide
  simp [matchesStrict, function_keywords, strictLoop, uxGatedKeywords,
        hpe, hce, hac, haw, hcs, hux, hanyai]

theorem c2_witness : matchesStrict "UX Designer" = false :=
  c2_amended "UX Designer" (by decide) (by decide) (by decide) (by decide) (by decide)

/-! ## Error-handling theorem (C9) -/

/-- C9: a fetched record with an absent or empty title is skipped without
being added, without any log line, and processing of the company's
remaining records is unchanged — for both sources (absence is modelled as
the `""` default of `job.get("title", "")` / `job.get("text", "")`). -/
theorem c9_empty_title_skipped (company : String)
    (pre post : List RawGreenhouse) (preL postL : List RawLever)
    (gBad : RawGreenhouse) (lBad : RawLever)
    (hg : gBad.title = "") (hl : lBad.text = "") :
    (processGreenhouse company (pre ++ gBad :: post) =
       processGreenhouse company (pre ++ post) ∧
     greenhouseFoundLog company (pre ++ gBad :: post) =
       greenhouseFoundLog company (pre ++ post)) ∧
    (processLever company (preL ++ lBad :: postL) =
       processLever company (preL ++ postL) ∧
     leverFoundLog company (preL ++ lBad :: postL) =
       leverFoundLog company (preL ++ postL)) := by
  have h1 : processGreenhouse company (pre ++ gBad :: post) =
      processGreenhouse company (pre ++ post) := by
    simp [processGreenhouse, List.filterMap_append, List.filterMap_cons, hg]
  have h2 : processLever company (preL ++ lBad :: postL) =
      processLever company (preL ++ postL) := by
    simp [processLever, List.filterMap_append, List.filterMap_cons, hl]
  exact ⟨⟨h1, by simp [greenhouseFoundLog, h1]⟩,
         ⟨h2, by simp [leverFoundLog, h2]⟩⟩

theorem c9_witness :
    processGreenhouse "anthropic"
        [⟨"", none, "", none⟩, ⟨"Prompt Engineer", none, "u", none⟩] =
      processGreenhouse "anthropic" [⟨"Prompt Engineer", none, "u", none⟩] ∧
    processLever "anthropic"
        [⟨"", none, none, "", none⟩, ⟨"Prompt Engineer", none, none, "u", none⟩] =
      processLever "anthropic" [⟨"Prompt Engineer", none, none, "u", none⟩] := by
  have h := c9_empty_title_skipped "anthropic"
    [] [⟨"Prompt Engineer", none, "u", none⟩]
    [] [⟨"Prompt Engineer", none, none, "u", none⟩]
    ⟨"", none, "", none⟩ ⟨"", none, none, "", none⟩ rfl rfl
  exact ⟨h.1.1, h.2.1⟩

/-! ## Aggregator lemmas -/

theorem assocFind_none_iff (m : List (JobKey × Job)) (k : JobKey) :
    assocFind m k = none ↔ ∀ e ∈ m, e.1 ≠ k := by
  induction m with
  | nil => simp [assocFind]
  | cons e rest ih =>
    simp only [assocFind]
    by_cases h : e.1 = k
    · simp [h]
    · simp [h, ih]

theorem replaceAssoc_keys (m : List (JobKey × Job)) (k : JobKey) (j : Job) :
    (replaceAssoc m k j).map Prod.fst = m.map Prod.fst := by
  induction m with
  | nil => rfl
  | cons e rest ih =>
    simp only [replaceAssoc, List.map_cons] at ih ⊢
    by_cases h : e.1 = k
    · rw [if_pos h, ih, h]
    · rw [if_neg h, ih]

theorem assocFind_mem (m : List (JobKey × Job)) (k : JobKey) (r : Job)
    (h : assocFind m k = some r) : r ∈ m.map Prod.snd := by
  induction m with
  | nil => cases h
  | cons e rest ih =>
    simp only [assocFind] at h
    by_cases he : e.1 = k
    · rw [if_pos he] at h
      injection h with h
      simp [h.symm]
    · rw [if_neg he] at h
      simp [ih h]

theorem assocFind_append_none (m m2 : List (JobKey × Job)) (k : JobKey)
    (h : assocFind m k = none) : assocFind (m ++ m2) k = assocFind m2 k := by
  induction m with
  | nil => rfl
  | cons e rest ih =>
    simp only [assocFind] at h ⊢
    by_cases he : e.1 = k
    · rw [if_pos he] at h; cases h
    · rw [if_neg he] at h ⊢
      exact ih h

theorem assocFind_append_single_ne (m : List (JobKey × Job)) (k' : JobKey)
    (j : Job) (k : JobKey) (h : k' ≠ k) :
    assocFind (m ++ [(k', j)]) k = assocFind m k := by
  induction m with
  | nil => simp [assocFind, h]
  | cons e rest ih =>
    simp only [List.cons_append, assocFind]
    by_cases he : e.1 = k
    · simp [he]
    · simp [he, ih]

theorem assocFind_replace_ne (m : List (JobKey × Job)) (k' : JobKey)
    (j : Job) (k : JobKey) (h : k' ≠ k) :
    assocFind (replaceAssoc m k' j) k = assocFind m k := by
  induction m with
  | nil => rfl
  | cons e rest ih =>
    simp only [replaceAssoc, List.map_cons] at ih ⊢
    by_cases he : e.1 = k'
    · rw [if_pos he]
      simp only [assocFind, if_neg h]
      rw [he] at *
      simp only [assocFind, if_neg h]
      exact ih
    · rw [if_neg he]
      simp only [assocFind]
      by_cases hek : e.1 = k
      · simp [hek]
      · simp [hek, ih]

theorem assocFind_replace_self (m : List (JobKey × Job)) (k : JobKey)
    (j r : Job) (h : assocFind m k = some r) :
    assocFind (replaceAssoc m k j) k = some j := by
  induction m with
  | nil => cases h
  | cons e rest ih =>
    simp only [replaceAssoc, List.map_cons] at ih ⊢
    simp only [assocFind] at h
    by_cases he : e.1 = k
    · rw [if_pos he]
      simp [assocFind]
    · rw [if_neg he]
      rw [if_neg he] at h
      simp only [assocFind, if_neg he]
      exact ih h

/-- The per-key view of one dedup-loop iteration. -/
def stepK (k : JobKey) (acc : Option Job) (j : Job) : Option Job :=
  if dedupKey j = k then
    match acc with
    | none => some j
    | some e => if e.tier == "wide" && j.tier == "strict" then some j else some e
  else acc

theorem assocFind_insertJob (seen : List (JobKey × Job)) (j : Job) (k : JobKey) :
    assocFind (insertJob seen j) k = stepK k (assocFind seen k) j := by
  by_cases hk : dedupKey j = k
  · subst hk
    unfold insertJob
    cases hfind : assocFind seen (dedupKey j) with
    | none =>
      rw [assocFind_append_none _ _ _ hfind]
      simp [assocFind, stepK, hfind]
    | some e =>
      cases hc : (e.tier == "wide" && j.tier == "strict") with
      | true =>
        simp only [hc, if_true]
        rw [assocFind_replace_self _ _ _ _ hfind]
        simp [stepK, hfind, hc]
      | false =>
        simp [hc, stepK, hfind]
  · unfold insertJob
    cases hfind : assocFind seen (dedupKey j) with
    | none =>
      rw [assocFind_append_single_ne _ _ _ _ hk]
      simp [stepK, hk]
    | some e =>
      cases hc : (e.tier == "wide" && j.tier == "strict") with
      | true =>
        simp only [hc, if_true]
        rw [assocFind_replace_ne _ _ _ _ hk]
        simp [stepK, hk]
      | false =>
        simp [hc, stepK, hk]

theorem foldl_insert_find (l : List Job) :
    ∀ (seen : List (JobKey × Job)) (k : JobKey),
      assocFind (l.foldl insertJob seen) k = l.foldl (stepK k) (assocFind seen k) := by
  induction l with
  | nil => intro seen k; rfl
  | cons x xs ih =>
    intro seen k
    simp only [List.foldl_cons]
    rw [ih, assocFind_insertJob]

theorem foldl_stepK_filter (l : List Job) :
    ∀ (k : JobKey) (acc : Option Job),
      l.foldl (stepK k) acc =
        (l.filter fun j => decide (dedupKey j = k)).foldl (stepK k) acc := by
  induction l with
  | nil => intro k acc; rfl
  | cons x xs ih =>
    intro k acc
    by_cases h : dedupKey x = k
    · simp [List.filter_cons, h, ih]
    · have hskip : stepK k acc x = acc := by simp [stepK, h]
      simp [List.filter_cons, h, hskip, ih]

/-- Every entry of the dedup map stores the record whose dedup key is the
entry's key. -/
def consistentKeys (m : List (JobKey × Job)) : Prop :=
  ∀ e ∈ m, dedupKey e.2 = e.1

theorem insertJob_consistent (seen : List (JobKey × Job)) (j : Job)
    (h : consistentKeys seen) : consistentKeys (insertJob seen j) := by
  unfold insertJob
  cases hfind : assocFind seen (dedupKey j) with
  | none =>
    intro e he
    rcases List.mem_append.mp he with h1 | h1
    · exact h e h1
    · simp only [List.mem_singleton] at h1
      rw [h1]
  | some ex =>
    cases hc : (ex.tier == "wide" && j.tier == "strict") with
    | true =>
      simp only [hc, if_true]
      intro e he
      obtain ⟨e0, he0, heq⟩ := List.mem_map.mp he
      by_cases h0 : e0.1 = dedupKey j
      · rw [if_pos h0] at heq
        rw [← heq]
      · rw [if_neg h0] at heq
        rw [← heq]
        exact h e0 he0
    | false =>
      simp only [hc, Bool.false_eq_true, if_false]
      exact h

theorem insertJob_nodup (seen : List (JobKey × Job)) (j : Job)
    (hn : (seen.map Prod.fst).Nodup) : ((insertJob seen j).map Prod.fst).Nodup := by
  unfold insertJob
  cases hfind : assocFind seen (dedupKey j) with
  | none =>
    have hnotin : dedupKey j ∉ seen.map Prod.fst := by
      intro hmem
      obtain ⟨e, he, heq⟩ := List.mem_map.mp hmem
      exact (assocFind_none_iff seen (dedupKey j)).mp hfind e he heq
    simp only [List.map_append, List.map_cons, List.map_nil]
    rw [List.nodup_append]
    refine ⟨hn, List.nodup_singleton _, ?_⟩
    intro a ha hb
    simp only [List.mem_singleton] at hb
    exact hnotin (hb ▸ ha)
  | some ex =>
    cases hc : (ex.tier == "wide" && j.tier == "strict") with
    | true =>
      simp only [hc, if_true]
      rw [replaceAssoc_keys]
      exact hn
    | false =>
      simp only [hc, Bool.false_eq_true, if_false]
      exact hn

theorem foldl_insert_invariants (l : List Job) :
    ∀ seen : List (JobKey × Job), consistentKeys seen → (seen.map Prod.fst).Nodup →
      consistentKeys (l.foldl insertJob seen) ∧
        ((l.foldl insertJob seen).map Prod.fst).Nodup := by
  induction l with
  | nil => intro seen hc hn; exact ⟨hc, hn⟩
  | cons x xs ih =>
    intro seen hc hn
    exact ih (insertJob seen x) (insertJob_consistent seen x hc) (insertJob_nodup seen x hn)

theorem map_dedupKey_eq_keys (m : List (JobKey × Job)) (h : consistentKeys m) :
    m.map (fun e => dedupKey e.2) = m.map Prod.fst := by
  induction m with
  | nil => rfl
  | cons e rest ih =>
    simp only [List.map_cons]
    rw [h e (List.mem_cons_self e rest), ih (fun e' he' => h e' (List.mem_cons_of_mem e he'))]

/-- C5: the finalized result list of the aggregation step has at most one
record per composite dedup key (lowercased title, lowercased company). -/
theorem c5_unique_keys (l : List Job) : ((aggregate l).map dedupKey).Nodup := by
  obtain ⟨hc, hn⟩ := foldl_insert_invariants l [] (by intro e he; cases he) (by simp)
  unfold aggregate
  rw [List.map_map]
  have : (l.foldl insertJob []).map (dedupKey ∘ Prod.snd) =
      (l.foldl insertJob []).map Prod.fst := map_dedupKey_eq_keys _ hc
  rw [this]
  exact hn

theorem stepK_strict (l : List Job) :
    ∀ (k : JobKey) (acc : Option Job),
      (∀ j ∈ l, j.tier = "strict" ∨ j.tier = "wide") →
      (∀ e, acc = some e → e.tier = "strict" ∨ e.tier = "wide") →
      ((∃ j ∈ l, dedupKey j = k ∧ j.tier = "strict") ∨
        (∃ e, acc = some e ∧ e.tier = "strict")) →
      ∃ r, l.foldl (stepK k) acc = some r ∧ r.tier = "strict" := by
  induction l with
  | nil =>
    intro k acc _ _ hsrc
    rcases hsrc with ⟨j, hj, _⟩ | ⟨e, he, het⟩
    · cases hj
    · exact ⟨e, by simp [he], het⟩
  | cons x xs ih =>
    intro k acc hcl hacc hsrc
    simp only [List.foldl_cons]
    have hclx := hcl x (List.mem_cons_self x xs)
    have hcl' : ∀ j ∈ xs, j.tier = "strict" ∨ j.tier = "wide" :=
      fun j hj => hcl j (List.mem_cons_of_mem x hj)
    have hacc' : ∀ e, stepK k acc x = some e → e.tier = "strict" ∨ e.tier = "wide" := by
      intro e he
      unfold stepK at he
      by_cases hk : dedupKey x = k
      · rw [if_pos hk] at he
        cases hc : acc with
        | none => rw [hc] at he; injection he with he; exact he ▸ hclx
        | some e0 =>
          rw [hc] at he
          simp only at he
          by_cases hcond : (e0.tier == "wide" && x.tier == "strict") = true
          · rw [if_pos hcond] at he; injection he with he; exact he ▸ hclx
          · rw [if_neg hcond] at he
            injection he with he
            exact he ▸ hacc e0 hc
      · rw [if_neg hk] at he
        exact hacc e he
    apply ih k (stepK k acc x) hcl' hacc'
    rcases hsrc with ⟨j, hj, hjk, hjt⟩ | ⟨e, he, het⟩
    · rcases List.mem_cons.mp hj with rfl | hj'
      · -- the strict posting is x itself: the accumulator becomes strict
        right
        unfold stepK
        rw [if_pos hjk]
        cases hc : acc with
        | none => exact ⟨j, rfl, hjt⟩
        | some e0 =>
          simp only
          by_cases hcond : (e0.tier == "wide" && j.tier == "strict") = true
          · rw [if_pos hcond]; exact ⟨j, rfl, hjt⟩
          · rw [if_neg hcond]
            refine ⟨e0, rfl, ?_⟩
            rw [Bool.and_eq_true] at hcond
            push_neg at hcond
            rcases hacc e0 hc with h0 | h0
            · exact h0
            · exfalso
              apply hcond
              · rw [h0]; rfl
              · rw [hjt]; rfl
      · exact Or.inl ⟨j, hj', hjk, hjt⟩
    · right
      unfold stepK
      by_cases hk : dedupKey x = k
      · rw [if_pos hk, he]
        simp only
        have : (e.tier == "wide") = false := by
          rw [het]; rfl
        rw [this]
        simp only [Bool.false_and, Bool.false_eq_true, if_false]
        exact ⟨e, rfl, het⟩
      · rw [if_neg hk]
        exact ⟨e, he, het⟩

theorem stepK_keep_first (rest : List Job) :
    ∀ (k : JobKey) (p : Job), (∀ j ∈ rest, j.tier = p.tier) →
      rest.foldl (stepK k) (some p) = some p := by
  induction rest with
  | nil => intro k p _; rfl
  | cons x xs ih =>
    intro k p hall
    simp only [List.foldl_cons]
    have hx := hall x (List.mem_cons_self x xs)
    have hstep : stepK k (some p) x = some p := by
      unfold stepK
      by_cases hk : dedupKey x = k
      · rw [if_pos hk]
        simp only
        have : (p.tier == "wide" && x.tier == "strict") = false := by
          rw [hx]
          by_cases hw : p.tier = "wide"
          · rw [hw]; rfl
          · rw [Bool.and_eq_false_iff]
            left
            exact beq_eq_false_iff_ne.mpr hw
        rw [this]
        simp
      · rw [if_neg hk]
    rw [hstep]
    exact ih k p (fun j hj => hall j (List.mem_cons_of_mem x hj))

/-- C1: for a sequence of classified postings, (i) whenever a wide and a
strict posting share a dedup key the Aggregator's surviving record for
that key is "strict", in either arrival order, and (ii) when all postings
of a key carry equal tiers the first-seen record survives unchanged. -/
theorem c1_dedup_tier (l : List Job) (p q : Job) (hkey : dedupKey p = dedupKey q) :
    ((∀ j ∈ l, j.tier = "strict" ∨ j.tier = "wide") → p ∈ l → q ∈ l →
      ((p.tier = "wide" ∧ q.tier = "strict") ∨ (p.tier = "strict" ∧ q.tier = "wide")) →
      ∃ r, survivorAt l (dedupKey p) = some r ∧ r ∈ aggregate l ∧ r.tier = "strict") ∧
    ((l.filter fun j => decide (dedupKey j = dedupKey p)).head? = some p →
      (∀ j ∈ l, dedupKey j = dedupKey p → j.tier = p.tier) →
      survivorAt l (dedupKey p) = some p ∧ p ∈ aggregate l) := by
  have hfold : survivorAt l (dedupKey p) =
      l.foldl (stepK (dedupKey p)) none := by
    unfold survivorAt
    rw [foldl_insert_find l [] (dedupKey p)]
    rfl
  constructor
  · intro hcl hp hq htiers
    have hsrc : ∃ j ∈ l, dedupKey j = dedupKey p ∧ j.tier = "strict" := by
      rcases htiers with ⟨_, hqs⟩ | ⟨hps, _⟩
      · exact ⟨q, hq, hkey.symm, hqs⟩
      · exact ⟨p, hp, rfl, hps⟩
    obtain ⟨r, hr, hrt⟩ :=
      stepK_strict l (dedupKey p) none hcl (by intro e he; cases he) (Or.inl hsrc)
    have hsome : survivorAt l (dedupKey p) = some r := hfold.trans hr
    exact ⟨r, hsome, assocFind_mem _ _ _ hsome, hrt⟩
  · intro hfirst hall
    have hfilter := foldl_stepK_filter l (dedupKey p) none
    have hsome : survivorAt l (dedupKey p) = some p := by
      rw [hfold, hfilter]
      cases hf : l.filter fun j => decide (dedupKey j = dedupKey p) with
      | nil => rw [hf] at hfirst; cases hfirst
      | cons a rest =>
        rw [hf] at hfirst
        simp only [List.head?_cons, Option.some.injEq] at hfirst
        subst hfirst
        simp only [List.foldl_cons]
        have hstep0 : stepK (dedupKey a) none a = some a := by
          unfold stepK
          rw [if_pos rfl]
        rw [hstep0]
        apply stepK_keep_first
        intro j hj
        have hjf : j ∈ l.filter fun j => decide (dedupKey j = dedupKey a) := by
          rw [hf]; exact List.mem_cons_of_mem a hj
        have hjl := (List.mem_filter.mp hjf).1
        have hjk := (List.mem_filter.mp hjf).2
        simp only [decide_eq_true_eq] at hjk
        exact hall j hjl hjk
    refine ⟨hsome, ?_⟩
    unfold survivorAt at hsome
    exact assocFind_mem _ _ _ hsome

theorem c1_witness :
    (∃ r, survivorAt
        [⟨"AI Product Manager", "Figma", "Remote", none, "", "Greenhouse",
            DateVal.str "Recent", "wide"⟩,
         ⟨"ai product manager", "figma", "Remote", none, "", "Greenhouse",
            DateVal.str "Recent", "strict"⟩]
        (dedupKey ⟨"AI Product Manager", "Figma", "Remote", none, "", "Greenhouse",
            DateVal.str "Recent", "wide"⟩) = some r ∧
      r ∈ aggregate
        [⟨"AI Product Manager", "Figma", "Remote", none, "", "Greenhouse",
            DateVal.str "Recent", "wide"⟩,
         ⟨"ai product manager", "figma", "Remote", none, "", "Greenhouse",
            DateVal.str "Recent", "strict"⟩] ∧
      r.tier = "strict") ∧
    (survivorAt
        [⟨"Prompt Engineer", "Canva", "A", none, "u1", "Greenhouse",
            DateVal.str "Recent", "strict"⟩,
         ⟨"Prompt Engineer", "Canva", "B", none, "u2", "Greenhouse",
            DateVal.str "Recent", "strict"⟩]
        (dedupKey ⟨"Prompt Engineer", "Canva", "A", none, "u1", "Greenhouse",
            DateVal.str "Recent", "strict"⟩) =
      some ⟨"Prompt Engineer", "Canva", "A", none, "u1", "Greenhouse",
            DateVal.str "Recent", "strict"⟩ ∧
      (⟨"Prompt Engineer", "Canva", "A", none, "u1", "Greenhouse",
            DateVal.str "Recent", "strict"⟩ : Job) ∈ aggregate
        [⟨"Prompt Engineer", "Canva", "A", none, "u1", "Greenhouse",
            DateVal.str "Recent", "strict"⟩,
         ⟨"Prompt Engineer", "Canva", "B", none, "u2", "Greenhouse",
            DateVal.str "Recent", "strict"⟩]) := by
  constructor
  · exact (c1_dedup_tier _ _
      ⟨"ai product manager", "figma", "Remote", none, "", "Greenhouse",
        DateVal.str "Recent", "strict"⟩ (by decide)).1
      (by decide) (by decide) (by decide) (Or.inl ⟨rfl, rfl⟩)
  · exact (c1_dedup_tier _ _
      ⟨"Prompt Engineer", "Canva", "B", none, "u2", "Greenhouse",
        DateVal.str "Recent", "strict"⟩ (by decide)).2
      (by decide) (by decide)

/-! ## Pipeline membership and tier invariants (C10) -/

theorem mem_insertJob_snd (seen : List (JobKey × Job)) (x j : Job)
    (h : j ∈ (insertJob seen x).map Prod.snd) : j ∈ seen.map Prod.snd ∨ j = x := by
  cases hfind : assocFind seen (dedupKey x) with
  | none =>
    have hins : insertJob seen x = seen ++ [(dedupKey x, x)] := by
      unfold insertJob; rw [hfind]
    rw [hins] at h
    simp only [List.map_append, List.map_cons, List.map_nil, List.mem_append,
      List.mem_singleton] at h
    exact h
  | some e =>
    have hins : insertJob seen x =
        if (e.tier == "wide" && x.tier == "strict") = true
        then replaceAssoc seen (dedupKey x) x else seen := by
      unfold insertJob; rw [hfind]
    rw [hins] at h
    by_cases hc : (e.tier == "wide" && x.tier == "strict") = true
    · rw [if_pos hc] at h
      unfold replaceAssoc at h
      rw [List.map_map] at h
      obtain ⟨e1, he1, heq⟩ := List.mem_map.mp h
      by_cases h1 : e1.1 = dedupKey x
      · right
        simp only [Function.comp_apply, if_pos h1] at heq
        exact heq.symm
      · left
        simp only [Function.comp_apply, if_neg h1] at heq
        exact heq ▸ List.mem_map.mpr ⟨e1, he1, rfl⟩
    · rw [if_neg hc] at h
      exact Or.inl h

theorem mem_aggregate {l : List Job} {j : Job} (h : j ∈ aggregate l) : j ∈ l := by
  have aux : ∀ (ll : List Job) (seen : List (JobKey × Job)) (j : Job),
      j ∈ (ll.foldl insertJob seen).map Prod.snd →
      j ∈ seen.map Prod.snd ∨ j ∈ ll := by
    intro ll
    induction ll with
    | nil => intro seen j h; exact Or.inl h
    | cons x xs ih =>
      intro seen j h
      rcases ih (insertJob seen x) j h with h1 | h1
      · rcases mem_insertJob_snd seen x j h1 with h2 | h2
        · exact Or.inl h2
        · exact Or.inr (by rw [h2]; exact List.mem_cons_self x xs)
      · exact Or.inr (List.mem_cons_of_mem x h1)
  rcases aux l [] j h with h1 | h1
  · simp at h1
  · exact h1

theorem wide_ne_strict : ("wide" : String) ≠ "strict" := by decide

theorem processGreenhouse_tier {c : String} {ps : List RawGreenhouse} {j : Job}
    (h : j ∈ processGreenhouse c ps) :
    (j.tier = "strict" ↔ matchesStrict j.title = true) ∧
    (j.tier = "strict" ∨ j.tier = "wide") := by
  unfold processGreenhouse at h
  obtain ⟨raw, _, heq⟩ := List.mem_filterMap.mp h
  by_cases ht : raw.title = ""
  · rw [if_pos ht] at heq; cases heq
  · rw [if_neg ht] at heq
    by_cases hsw : (!matchesStrict raw.title && !matchesWide raw.title) = true
    · rw [if_pos hsw] at heq; cases heq
    · rw [if_neg hsw] at heq
      injection heq with heq
      subst heq
      cases hs : matchesStrict raw.title with
      | true => simp [hs]
      | false => simp [hs, wide_ne_strict]

theorem processLever_tier {c : String} {ps : List RawLever} {j : Job}
    (h : j ∈ processLever c ps) :
    (j.tier = "strict" ↔ matchesStrict j.title = true) ∧
    (j.tier = "strict" ∨ j.tier = "wide") := by
  unfold processLever at h
  obtain ⟨raw, _, heq⟩ := List.mem_filterMap.mp h
  by_cases ht : raw.text = ""
  · rw [if_pos ht] at heq; cases heq
  · rw [if_neg ht] at heq
    by_cases hsw : (!matchesStrict raw.text && !matchesWide raw.text) = true
    · rw [if_pos hsw] at heq; cases heq
    · rw [if_neg hsw] at heq
      injection heq with heq
      subst heq
      cases hs : matchesStrict raw.text with
      | true => simp [hs]
      | false => simp [hs, wide_ne_strict]

theorem tier_partition_count (l : List Job)
    (h : ∀ j ∈ l, j.tier = "strict" ∨ j.tier = "wide") :
    (strictJobs l).length + (wideJobs l).length = l.length := by
  induction l with
  | nil => rfl
  | cons x xs ih =>
    have hx := h x (List.mem_cons_self x xs)
    have ih2 := ih (fun j hj => h j (List.mem_cons_of_mem x hj))
    unfold strictJobs wideJobs at ih2 ⊢
    rcases hx with hx | hx
    · have t1 : (x.tier == "strict") = true := by rw [hx]; rfl
      have t2 : (x.tier == "wide") = false := by rw [hx]; rfl
      simp only [List.filter_cons, t1, t2, Bool.false_eq_true, if_true, if_false,
        List.length_cons]
      omega
    · have t1 : (x.tier == "strict") = false := by rw [hx]; rfl
      have t2 : (x.tier == "wide") = true := by rw [hx]; rfl
      simp only [List.filter_cons, t1, t2, Bool.false_eq_true, if_true, if_false,
        List.length_cons]
      omega

/-- C10: every record the pipeline ever places in the result list carries
tier "strict" exactly when the strict predicate holds for its title (and
otherwise "wide"), so the Reporter's strict and wide subsets partition the
finalized list and the per-tier counts sum to the total. -/
theorem c10_tier_invariant (gh : List (String × List RawGreenhouse))
    (lv : List (String × List RawLever)) :
    (∀ j ∈ pipelineJobs gh lv,
      (j.tier = "strict" ↔ matchesStrict j.title = true) ∧
      (j.tier = "strict" ∨ j.tier = "wide")) ∧
    (strictJobs (pipelineJobs gh lv)).length + (wideJobs (pipelineJobs gh lv)).length =
      (pipelineJobs gh lv).length := by
  have hmem : ∀ j ∈ pipelineJobs gh lv,
      (j.tier = "strict" ↔ matchesStrict j.title = true) ∧
      (j.tier = "strict" ∨ j.tier = "wide") := by
    intro j hj
    have hj2 := mem_aggregate hj
    rw [List.mem_append] at hj2
    rcases hj2 with h | h
    · obtain ⟨sub, hsub, hjsub⟩ := List.mem_flatten.mp h
      obtain ⟨pair, _, hpeq⟩ := List.mem_map.mp hsub
      exact processGreenhouse_tier (hpeq ▸ hjsub)
    · obtain ⟨sub, hsub, hjsub⟩ := List.mem_flatten.mp h
      obtain ⟨pair, _, hpeq⟩ := List.mem_map.mp hsub
      exact processLever_tier (hpeq ▸ hjsub)
  exact ⟨hmem, tier_partition_count _ (fun j hj => (hmem j hj).2)⟩

theorem c10_witness :
    ((⟨"AI Product Designer", "Anthropic", "Not specified", none, "", "Greenhouse",
        DateVal.str "Recent", "strict"⟩ : Job).tier = "strict" ↔
      matchesStrict (⟨"AI Product Designer", "Anthropic", "Not specified", none, "",
        "Greenhouse", DateVal.str "Recent", "strict"⟩ : Job).title = true) ∧
    ((⟨"AI Product Designer", "Anthropic", "Not specified", none, "", "Greenhouse",
        DateVal.str "Recent", "strict"⟩ : Job).tier = "strict" ∨
     (⟨"AI Product Designer", "Anthropic", "Not specified", none, "", "Greenhouse",
        DateVal.str "Recent", "strict"⟩ : Job).tier = "wide") :=
  (c10_tier_invariant
      [("anthropic", [⟨"AI Product Designer", none, "", none⟩])] []).1
    ⟨"AI Product Designer", "Anthropic", "Not specified", none, "", "Greenhouse",
      DateVal.str "Recent", "strict"⟩
    (by decide)

/-! ## Serialization theorems (C8) -/

/-- C8 fails on the code as stated: a Lever-sourced record carrying an
employment type serializes it under the key "type", not the §3 name
`employment_type`. -/
theorem c8_counterexample :
    ∃ fields ∈ (pipelineJobs []
        [("shopify", [⟨"AI Solutions Engineer", none, some "Full-time", "u",
            some 1700000000000⟩])]).map jobToFields,
      "employment_type" ∉ fields.map Prod.fst ∧ "type" ∈ fields.map Prod.fst := by
  refine ⟨jobToFields ⟨"AI Solutions Engineer", "Shopify", "Not specified",
    some "Full-time", "u", "Lever", DateVal.num 1700000000000, "wide"⟩, ?_, ?_, ?_⟩
  · decide
  · decide
  · decide

/-- C8 (amended): the structured output is a single-key object "jobs"
holding the flat finalized record list; each record's field names are the
code's dict keys — `title, company, location, url, source, posted_date,
tier`, with the optional employment-type field named `type` (present
exactly for Lever records), not `employment_type`. -/
theorem c8_amended (gh : List (String × List RawGreenhouse))
    (lv : List (String × List RawLever)) :
    (savePayload (pipelineJobs gh lv)).map Prod.fst = ["jobs"] ∧
    ∀ fields ∈ (pipelineJobs gh lv).map jobToFields,
      (fields.map Prod.fst = greenhouseFieldNames ∨
        fields.map Prod.fst = leverFieldNames) ∧
      "employment_type" ∉ fields.map Prod.fst := by
  refine ⟨rfl, ?_⟩
  intro fields hf
  obtain ⟨j, _, hjeq⟩ := List.mem_map.mp hf
  subst hjeq
  cases ht : j.typ with
  | none =>
    have hnames : (jobToFields j).map Prod.fst = greenhouseFieldNames := by
      simp [jobToFields, ht, greenhouseFieldNames]
    rw [hnames]
    exact ⟨Or.inl rfl, by decide⟩
  | some t =>
    have hnames : (jobToFields j).map Prod.fst = leverFieldNames := by
      simp [jobToFields, ht, leverFieldNames]
    rw [hnames]
    exact ⟨Or.inr rfl, by decide⟩

theorem c8_witness :
    (savePayload (pipelineJobs
        [("anthropic", [⟨"AI Product Designer", none, "", none⟩])] [])).map Prod.fst =
      ["jobs"] ∧
    ((jobToFields ⟨"AI Product Designer", "Anthropic", "Not specified", none, "",
        "Greenhouse", DateVal.str "Recent", "strict"⟩).map Prod.fst =
        greenhouseFieldNames ∨
      (jobToFields ⟨"AI Product Designer", "Anthropic", "Not specified", none, "",
        "Greenhouse", DateVal.str "Recent", "strict"⟩).map Prod.fst =
        leverFieldNames) ∧
    "employment_type" ∉ (jobToFields ⟨"AI Product Designer", "Anthropic",
        "Not specified", none, "", "Greenhouse", DateVal.str "Recent",
        "strict"⟩).map Prod.fst := by
  have h := c8_amended [("anthropic", [⟨"AI Product Designer", none, "", none⟩])] []
  exact ⟨h.1, h.2 _ (by decide)⟩

/-! ## Reporter determinism (C6) -/

/-- C6: for a fixed finalized result list and a fixed current date the
Reporter's text rendering is byte-identical across runs, and the embedded
current-date header (line index 1) is the only line that can differ when
the date differs. -/
theorem c6_reporter_deterministic (jobs : List Job) (d1 d2 : String) :
    (d1 = d2 → generateReport jobs d1 = generateReport jobs d2) ∧
    ∀ i : Nat, i ≠ 1 → (reportLines jobs d1).get? i = (reportLines jobs d2).get? i := by
  constructor
  · intro h; rw [h]
  · intro i hi
    cases i with
    | zero => rfl
    | succ n =>
      cases n with
      | zero => exact absurd rfl hi
      | succ m => rfl

theorem c6_witness :
    generateReport [] "March 01, 2024" = generateReport [] "March 01, 2024" ∧
    (reportLines [] "March 01, 2024").get? 0 = (reportLines [] "March 02, 2024").get? 0 :=
  ⟨(c6_reporter_deterministic [] "March 01, 2024" "March 01, 2024").1 rfl,
   (c6_reporter_deterministic [] "March 01, 2024" "March 02, 2024").2 0 (by decide)⟩

/-! ## Shape of the `"%b %d, %Y"` display (C7) -/

theorem toList_mk (L : List Char) : (String.mk L).toList = L := rfl

/-- After the `"Mon "` head: one or two day digits, `", "`, then a
non-empty run of year digits. -/
def checkDayYear : List Char → Bool
  | d1 :: c :: rest =>
    if c == ',' then
      d1.isDigit &&
      (match rest with
       | sp :: ys => (sp == ' ') && !ys.isEmpty && ys.all Char.isDigit
       | [] => false)
    else
      d1.isDigit && c.isDigit &&
      (match rest with
       | c2 :: sp :: ys =>
         (c2 == ',') && (sp == ' ') && !ys.isEmpty && ys.all Char.isDigit
       | _ => false)
  | _ => false

/-- A human month/day/year display: a month abbreviation, a space, a
one-or-two-digit day, a comma and space, and a digit year. -/
def isMonthDayYearDisplay (s : String) : Bool :=
  match s.toList with
  | a :: b :: c :: sp :: rest =>
    (sp == ' ') && monthAbbrevs.contains (String.mk [a, b, c]) && checkDayYear rest
  | _ => false

theorem stripZero_cons2 (a b : Char) (rest : List Char) (h : ¬(a = ' ' ∧ b = '0')) :
    stripZero (a :: b :: rest) = a :: stripZero (b :: rest) := by
  rw [show stripZero (a :: b :: rest) =
      (if a = ' ' ∧ b = '0' then ' ' :: stripZero rest
       else a :: stripZero (b :: rest)) from rfl,
    if_neg h]

theorem stripZero_pair (rest : List Char) :
    stripZero (' ' :: '0' :: rest) = ' ' :: stripZero rest := by
  rw [show stripZero (' ' :: '0' :: rest) =
      (if (' ' : Char) = ' ' ∧ ('0' : Char) = '0' then ' ' :: stripZero rest
       else ' ' :: stripZero ('0' :: rest)) from rfl,
    if_pos ⟨rfl, rfl⟩]

theorem stripZero_no_space (l : List Char) (h : ∀ c ∈ l, c ≠ ' ') :
    stripZero l = l := by
  induction l with
  | nil => rfl
  | cons a rest ih =>
    cases rest with
    | nil => rfl
    | cons b rest2 =>
      have ha : a ≠ ' ' := h a (List.mem_cons_self a _)
      rw [stripZero_cons2 a b rest2 (fun hc => ha hc.1),
          ih (fun c hc => h c (List.mem_cons_of_mem a hc))]

theorem stripZero_append_front (l1 l2 : List Char) (h : ∀ c ∈ l1, c ≠ ' ') :
    stripZero (l1 ++ l2) = l1 ++ stripZero l2 := by
  induction l1 with
  | nil => rfl
  | cons a l1' ih =>
    have ha : a ≠ ' ' := h a (List.mem_cons_self a l1')
    have h' : ∀ c ∈ l1', c ≠ ' ' := fun c hc => h c (List.mem_cons_of_mem a hc)
    cases hcat : l1' ++ l2 with
    | nil =>
      obtain ⟨h1, h2⟩ := List.append_eq_nil.mp hcat
      subst h1; subst h2
      rfl
    | cons b r2 =>
      rw [List.cons_append, hcat, stripZero_cons2 a b r2 (fun hc => ha hc.1), ← hcat,
          ih h', List.cons_append]

theorem digitChar_lt10 : ∀ k, k < 10 →
    (Nat.digitChar k).isDigit = true ∧ Nat.digitChar k ≠ ' ' ∧
    ((Nat.digitChar k) == ',') = false ∧ (k ≠ 0 → Nat.digitChar k ≠ '0') := by
  decide

theorem yearTail (y : Nat) (hy2 : y ≤ 9999) :
    ∃ ys : List Char, stripZero (' ' :: pad4 y) = ' ' :: ys ∧
      ys.isEmpty = false ∧ ys.all Char.isDigit = true := by
  have f1 := digitChar_lt10 (y / 1000 % 10) (Nat.mod_lt _ (by omega))
  have f2 := digitChar_lt10 (y / 100 % 10) (Nat.mod_lt _ (by omega))
  have f3 := digitChar_lt10 (y / 10 % 10) (Nat.mod_lt _ (by omega))
  have f4 := digitChar_lt10 (y % 10) (Nat.mod_lt _ (by omega))
  by_cases h1000 : y < 1000
  · have hz : y / 1000 % 10 = 0 := by
      rw [Nat.div_eq_of_lt h1000]
    have hp : pad4 y = '0' :: [Nat.digitChar (y / 100 % 10),
        Nat.digitChar (y / 10 % 10), Nat.digitChar (y % 10)] := by
      unfold pad4
      rw [hz]
      rfl
    have hns : ∀ c ∈ [Nat.digitChar (y / 100 % 10),
        Nat.digitChar (y / 10 % 10), Nat.digitChar (y % 10)], c ≠ ' ' := by
      intro c hc
      simp only [List.mem_cons, List.not_mem_nil, or_false] at hc
      rcases hc with rfl | rfl | rfl
      · exact f2.2.1
      · exact f3.2.1
      · exact f4.2.1
    rw [hp, stripZero_pair, stripZero_no_space _ hns]
    exact ⟨_, rfl, rfl, by simp [List.all_cons, f2.1, f3.1, f4.1]⟩
  · have hnz : y / 1000 % 10 ≠ 0 := by omega
    have hy0 : Nat.digitChar (y / 1000 % 10) ≠ '0' := f1.2.2.2 hnz
    have hns : ∀ c ∈ [Nat.digitChar (y / 1000 % 10), Nat.digitChar (y / 100 % 10),
        Nat.digitChar (y / 10 % 10), Nat.digitChar (y % 10)], c ≠ ' ' := by
      intro c hc
      simp only [List.mem_cons, List.not_mem_nil, or_false] at hc
      rcases hc with rfl | rfl | rfl | rfl
      · exact f1.2.1
      · exact f2.2.1
      · exact f3.2.1
      · exact f4.2.1
    rw [show (' ' :: pad4 y) = ' ' :: Nat.digitChar (y / 1000 % 10) ::
        [Nat.digitChar (y / 100 % 10), Nat.digitChar (y / 10 % 10),
         Nat.digitChar (y % 10)] from rfl]
    rw [stripZero_cons2 _ _ _ (fun hc => hy0 hc.2), stripZero_no_space _ hns]
    exact ⟨_, rfl, rfl, by simp [List.all_cons, f1.1, f2.1, f3.1, f4.1]⟩

theorem dayCommaYear (d y : Nat) (hd1 : 1 ≤ d) (hd2 : d ≤ 31) (hy2 : y ≤ 9999) :
    ∃ res : List Char,
      stripZero (' ' :: (pad2 d ++ ',' :: ' ' :: pad4 y)) = ' ' :: res ∧
      checkDayYear res = true := by
  obtain ⟨ys, hys, hysne, hysdig⟩ := yearTail y hy2
  have fd := digitChar_lt10 (d % 10) (Nat.mod_lt _ (by omega))
  by_cases hd10 : d < 10
  · have hp : pad2 d = '0' :: [Nat.digitChar (d % 10)] := by
      unfold pad2
      rw [Nat.div_eq_of_lt hd10]
      rfl
    rw [hp]
    rw [show ('0' :: [Nat.digitChar (d % 10)] ++ ',' :: ' ' :: pad4 y) =
        '0' :: Nat.digitChar (d % 10) :: ',' :: ' ' :: pad4 y from rfl]
    rw [stripZero_pair,
        stripZero_cons2 _ _ _ (fun hc => fd.2.1 hc.1),
        stripZero_cons2 _ _ _ (fun hc => by cases hc.1),
        hys]
    refine ⟨_, rfl, ?_⟩
    simp [checkDayYear, fd.1, hysne, hysdig]
  · have hq : d / 10 % 10 = d / 10 := Nat.mod_eq_of_lt (by omega)
    have hq13 : 1 ≤ d / 10 ∧ d / 10 ≤ 3 := by omega
    have fdt := digitChar_lt10 (d / 10 % 10) (Nat.mod_lt _ (by omega))
    have hd1c0 : Nat.digitChar (d / 10 % 10) ≠ '0' := fdt.2.2.2 (by omega)
    rw [show (' ' :: (pad2 d ++ ',' :: ' ' :: pad4 y)) =
        ' ' :: Nat.digitChar (d / 10 % 10) :: Nat.digitChar (d % 10) ::
          ',' :: ' ' :: pad4 y from rfl]
    rw [stripZero_cons2 _ _ _ (fun hc => hd1c0 hc.2),
        stripZero_cons2 _ _ _ (fun hc => fdt.2.1 hc.1),
        stripZero_cons2 _ _ _ (fun hc => fd.2.1 hc.1),
        stripZero_cons2 _ _ _ (fun hc => by cases hc.1),
        hys]
    refine ⟨_, rfl, ?_⟩
    simp [checkDayYear, fdt.1, fd.1, fd.2.2.1, fdt.2.2.1, hysne, hysdig]

theorem shape_core (mc1 mc2 mc3 : Char) (y d : Nat)
    (hmon : monthAbbrevs.contains (String.mk [mc1, mc2, mc3]) = true)
    (hsp1 : mc1 ≠ ' ') (hsp2 : mc2 ≠ ' ') (hsp3 : mc3 ≠ ' ')
    (hd1 : 1 ≤ d) (hd2 : d ≤ 31) (hy2 : y ≤ 9999) :
    isMonthDayYearDisplay (String.mk (stripZero
      ([mc1, mc2, mc3] ++ ' ' :: (pad2 d ++ ',' :: ' ' :: pad4 y)))) = true := by
  obtain ⟨res, hres, hchk⟩ := dayCommaYear d y hd1 hd2 hy2
  rw [stripZero_append_front _ _ (by
      intro c hc
      simp only [List.mem_cons, List.not_mem_nil, or_false] at hc
      rcases hc with rfl | rfl | rfl
      · exact hsp1
      · exact hsp2
      · exact hsp3),
    hres]
  show isMonthDayYearDisplay (String.mk (mc1 :: mc2 :: mc3 :: ' ' :: res)) = true
  unfold isMonthDayYearDisplay
  rw [toList_mk]
  show ((' ' == ' ') && monthAbbrevs.contains (String.mk [mc1, mc2, mc3]) &&
    checkDayYear res) = true
  rw [hmon, hchk]
  rfl

theorem display_shape (y m d : Nat) (hy2 : y ≤ 9999)
    (hm1 : 1 ≤ m) (hm2 : m ≤ 12) (hd1 : 1 ≤ d) (hd2 : d ≤ 31) :
    isMonthDayYearDisplay (displayString y m d) = true := by
  unfold displayString strftimeBdY
  interval_cases m <;>
    exact shape_core _ _ _ y d (by decide) (by decide) (by decide) (by decide) hd1 hd2 hy2

theorem daysInMonth_le (y m : Nat) : daysInMonth y m ≤ 31 := by
  unfold daysInMonth
  split
  · split <;> omega
  · split <;> omega

theorem millisToYMD_bounds {ms : Int} {y m d : Nat}
    (h : millisToYMD ms = some (y, m, d)) :
    1 ≤ y ∧ y ≤ 9999 ∧ 1 ≤ m ∧ m ≤ 12 ∧ 1 ≤ d ∧ d ≤ 31 := by
  simp only [millisToYMD] at h
  split at h
  · rename_i hc
    injection h with h
    rw [Prod.mk.injEq] at h
    obtain ⟨hy, hmd⟩ := h
    rw [Prod.mk.injEq] at hmd
    obtain ⟨hm, hd⟩ := hmd
    subst hy; subst hm; subst hd
    exact ⟨by omega, by omega, hc.2.2.1, hc.2.2.2.1, hc.2.2.2.2.1,
      le_trans hc.2.2.2.2.2 (daysInMonth_le _ _)⟩
  · exact Option.noConfusion h

theorem digitVal?_le {c : Char} {k : Nat} (h : digitVal? c = some k) : k ≤ 9 := by
  unfold digitVal? at h
  repeat' split at h
  all_goals first
    | exact Option.noConfusion h
    | (injection h with h; omega)

theorem parse4_le {a b c d : Char} {y : Nat} (h : parse4 a b c d = some y) :
    y ≤ 9999 := by
  unfold parse4 at h
  cases ha : digitVal? a with
  | none => rw [ha] at h; exact Option.noConfusion h
  | some w =>
    cases hb : digitVal? b with
    | none => rw [ha, hb] at h; exact Option.noConfusion h
    | some x =>
      cases hc : digitVal? c with
      | none => rw [ha, hb, hc] at h; exact Option.noConfusion h
      | some z =>
        cases hd : digitVal? d with
        | none => rw [ha, hb, hc, hd] at h; exact Option.noConfusion h
        | some u =>
          rw [ha, hb, hc, hd] at h
          injection h with h
          have la := digitVal?_le ha
          have lb := digitVal?_le hb
          have lc := digitVal?_le hc
          have ld := digitVal?_le hd
          omega

theorem parseIso_bounds {l : List Char} {y m d : Nat}
    (h : parseIso l = some (y, m, d)) :
    1 ≤ y ∧ y ≤ 9999 ∧ 1 ≤ m ∧ m ≤ 12 ∧ 1 ≤ d ∧ d ≤ 31 := by
  unfold parseIso at h
  split at h
  · rename_i y1 y2 y3 y4 s1 m1 m2 s2 d1 d2 rest
    split at h
    · rename_i yv mv dv hp4 hp2m hp2d
      split at h
      · rename_i hc
        injection h with h
        rw [Prod.mk.injEq] at h
        obtain ⟨hy, hmd⟩ := h
        rw [Prod.mk.injEq] at hmd
        obtain ⟨hm, hd⟩ := hmd
        subst hy; subst hm; subst hd
        have hle := parse4_le hp4
        exact ⟨hc.2.2.1, hle, hc.2.2.2.1, hc.2.2.2.2.1, hc.2.2.2.2.2.1,
          le_trans hc.2.2.2.2.2.2.1 (daysInMonth_le _ _)⟩
      · exact Option.noConfusion h
    · exact Option.noConfusion h
  · exact Option.noConfusion h

/-! ## Date-normalization theorems (C7) -/

/-- C7 fails on the code as stated: the epoch-millisecond input 10^18
(year ≈ 31.7 million, outside `datetime`'s year range 1–9999) makes
`fromtimestamp` raise, and the handler returns the bare decimal string,
not a month/day/year display. -/
theorem c7_counterexample :
    formatDate (DateVal.num 1000000000000000000) = "1000000000000000000" ∧
    isMonthDayYearDisplay (formatDate (DateVal.num 1000000000000000000)) = false := by
  constructor
  · decide
  · decide

/-- C7 (amended): a numeric epoch-millisecond input whose converted civil
date lies in `datetime`'s representable range yields a month/day/year
display; an out-of-range numeric input is returned as its decimal string;
the sentinel "Recent" passes through unchanged; a parseable ISO-8601
string (a trailing "Z" zone marker tolerated via the `replace`) yields
the same display; any other string is returned exactly as given. -/
theorem c7_amended :
    (∀ (ms : Int) (y m d : Nat), millisToYMD ms = some (y, m, d) →
      formatDate (.num ms) = displayString y m d ∧
      isMonthDayYearDisplay (formatDate (.num ms)) = true) ∧
    (∀ ms : Int, millisToYMD ms = none → formatDate (.num ms) = toString ms) ∧
    formatDate (.str "Recent") = "Recent" ∧
    (∀ (s : String) (y m d : Nat), parseIso (replaceZ s.toList) = some (y, m, d) →
      formatDate (.str s) = displayString y m d ∧
      isMonthDayYearDisplay (formatDate (.str s)) = true) ∧
    (∀ s : String, s ≠ "Recent" → parseIso (replaceZ s.toList) = none →
      formatDate (.str s) = s) := by
  refine ⟨?_, ?_, rfl, ?_, ?_⟩
  · intro ms y m d h
    have hb := millisToYMD_bounds h
    have heq : formatDate (.num ms) = displayString y m d := by
      show (match millisToYMD ms with
            | some (y, m, d) => displayString y m d
            | none => toString ms) = displayString y m d
      rw [h]
    refine ⟨heq, ?_⟩
    rw [heq]
    exact display_shape y m d hb.2.1 hb.2.2.1 hb.2.2.2.1 hb.2.2.2.2.1 hb.2.2.2.2.2
  · intro ms h
    show (match millisToYMD ms with
          | some (y, m, d) => displayString y m d
          | none => toString ms) = toString ms
    rw [h]
  · intro s y m d h
    have hb := parseIso_bounds h
    have hs1 : s ≠ "" := by
      intro hs
      rw [hs] at h
      rw [show parseIso (replaceZ "".toList) = none from rfl] at h
      exact Option.noConfusion h
    have hs2 : s ≠ "Recent" := by
      intro hs
      rw [hs] at h
      rw [show parseIso (replaceZ "Recent".toList) = none from rfl] at h
      exact Option.noConfusion h
    have heq : formatDate (.str s) = displayString y m d := by
      show (if s = "" then ""
            else if s = "Recent" then "Recent"
            else match parseIso (replaceZ s.toList) with
              | some (y, m, d) => displayString y m d
              | none => s) = displayString y m d
      rw [if_neg hs1, if_neg hs2, h]
    refine ⟨heq, ?_⟩
    rw [heq]
    exact display_shape y m d hb.2.1 hb.2.2.1 hb.2.2.2.1 hb.2.2.2.2.1 hb.2.2.2.2.2
  · intro s hs h
    show (if s = "" then ""
          else if s = "Recent" then "Recent"
          else match parseIso (replaceZ s.toList) with
            | some (y, m, d) => displayString y m d
            | none => s) = s
    by_cases hz : s = ""
    · rw [if_pos hz, hz]
    · rw [if_neg hz, if_neg hs, h]

theorem c7_witness :
    formatDate (DateVal.num 1700000000000) = displayString 2023 11 14 ∧
    isMonthDayYearDisplay (formatDate (DateVal.num 1700000000000)) = true ∧
    formatDate (DateVal.num 1000000000000000000) =
      toString (1000000000000000000 : Int) ∧
    formatDate (DateVal.str "Recent") = "Recent" ∧
    formatDate (DateVal.str "2024-03-05T12:34:56Z") = displayString 2024 3 5 ∧
    isMonthDayYearDisplay (formatDate (DateVal.str "2024-03-05T12:34:56Z")) = true ∧
    formatDate (DateVal.str "tomorrow") = "tomorrow" := by
  have h := c7_amended
  exact ⟨(h.1 1700000000000 2023 11 14 (by decide)).1,
         (h.1 1700000000000 2023 11 14 (by decide)).2,
         h.2.1 1000000000000000000 (by decide),
         h.2.2.1,
         (h.2.2.2.1 "2024-03-05T12:34:56Z" 2024 3 5 (by decide)).1,
         (h.2.2.2.1 "2024-03-05T12:34:56Z" 2024 3 5 (by decide)).2,
         h.2.2.2.2 "tomorrow" (by decide) (by decide)⟩
